import Mathlib

/-!
Verification of the NovaBrief email-content normalizer
(`src/ObtainEmlLambda/lambda_function.py`).

The Python code is shallowly embedded: byte strings become `List Nat`
(each element a byte value), text strings become `List Char`, fallible
operations return `Option`/`Except`, and Python exceptions are modelled by
the `PyErr` error type.  All definitions are executable so that concrete
messages can be evaluated by `decide`/`rfl`.
-/

namespace NovaBrief

/-- Text strings are modelled as lists of characters. -/
abbrev Str := List Char

/-- Python exceptions that the embedded code can raise. -/
inductive PyErr where
  /-- `UnicodeDecodeError`, raised by `bytes.decode` on undecodable input. -/
  | unicodeDecodeError : PyErr
  /-- `AttributeError`, raised e.g. by `None.strip()`. -/
  | attributeError : PyErr
  deriving DecidableEq

/-- Whitespace test used by Python's `str.strip()` (ASCII whitespace; the
only whitespace the embedded literals contain is spaces and newlines). -/
def isSpaceB (c : Char) : Bool :=
  c = ' ' || c = '\t' || c = '\n' || c = '\r' || c = '\x0b' || c = '\x0c'

/-- Python `str.lower()` (ASCII case folding; all characters the wrap
check compares are ASCII). -/
def pyLower (s : Str) : Str := s.map Char.toLower

/-- Drop leading whitespace, as the front half of Python `str.strip()`. -/
def stripLeading (s : Str) : Str := s.dropWhile isSpaceB

/-- Drop trailing whitespace, as the back half of Python `str.strip()`. -/
def stripTrailing (s : Str) : Str := (s.reverse.dropWhile isSpaceB).reverse

/-- Python `str.strip()` with no argument: remove whitespace at both ends. -/
def pyStrip (s : Str) : Str := stripTrailing (stripLeading s)

/-- Python `str.strip('<>')` as used on the Content-ID header: remove all
leading and trailing `<` and `>` characters. -/
def stripAngle (s : Str) : Str :=
  let p : Char → Bool := fun c => c = '<' || c = '>'
  ((s.dropWhile p).reverse.dropWhile p).reverse

/-- Fueled worker for `replaceAll`.  One unit of fuel is spent per emitted
chunk, and the top-level call supplies `s.length` fuel, which suffices for
every nonempty pattern. -/
def replaceAllGo : Nat → Str → Str → Str → Str
  | _, [], _, _ => []
  | 0, s, _, _ => s
  | n + 1, c :: cs, p, u =>
    if p.isPrefixOf (c :: cs) then u ++ replaceAllGo n ((c :: cs).drop p.length) p u
    else c :: replaceAllGo n cs p u

/-- Python `str.replace(p, u)`: replace every occurrence of `p`,
left-to-right and non-overlapping.  (The code only ever calls it with a
nonempty pattern: image keys are never empty.) -/
def replaceAll (s p u : Str) : Str := replaceAllGo s.length s p u

/-- The base64 alphabet, RFC 4648. -/
def b64Alphabet : Str :=
  "ABCDEFGHIJKLMNOPQRSTUVWXYZabcdefghijklmnopqrstuvwxyz0123456789+/".data

/-- One base64 digit. -/
def b64Char (n : Nat) : Char := b64Alphabet.getD n 'A'

/-- `base64.b64encode` on a byte list, producing the standard padded
encoding. -/
def b64encode : List Nat → Str
  | [] => []
  | [a] => [b64Char (a / 4), b64Char (a % 4 * 16), '=', '=']
  | [a, b] => [b64Char (a / 4), b64Char (a % 4 * 16 + b / 16), b64Char (b % 16 * 4), '=']
  | a :: b :: c :: rest =>
    b64Char (a / 4) :: b64Char (a % 4 * 16 + b / 16) ::
      b64Char (b % 16 * 4 + c / 64) :: b64Char (c % 64) :: b64encode rest

/-! ### Character decoders (`bytes.decode`)

`safe_decode` (lambda_function.py lines 27-50) tries the encodings
`['utf-8', 'utf-8-sig', 'cp1252', 'latin-1', 'iso-8859-1', 'iso-8859-15',
'ascii']` in order.  Each codec is modelled as a partial byte-list decoder;
`none` models a raised `UnicodeDecodeError`. -/

/-- The candidate encodings of lambda_function.py lines 27-32, in order. -/
inductive Encoding where
  | utf8 : Encoding
  | utf8sig : Encoding
  | cp1252 : Encoding
  | latin1 : Encoding
  | iso8859_1 : Encoding
  | iso8859_15 : Encoding
  | ascii : Encoding
  deriving DecidableEq

/-- Is `b` a UTF-8 continuation byte? -/
def utf8Cont (b : Nat) : Bool := 0x80 ≤ b && b ≤ 0xBF

/-- Decode one UTF-8 sequence whose first byte is `b` and whose remaining
bytes come from `bs`; yields the code point and the number of continuation
bytes consumed.  Follows CPython's strict decoder: overlong forms,
surrogates and code points above U+10FFFF are rejected. -/
def utf8Seq (b : Nat) (bs : List Nat) : Option (Nat × Nat) :=
  if b < 0x80 then some (b, 0)
  else if 0xC2 ≤ b && b ≤ 0xDF then
    match bs with
    | b1 :: _ => if utf8Cont b1 then some ((b - 0xC0) * 0x40 + (b1 - 0x80), 1) else none
    | [] => none
  else if 0xE0 ≤ b && b ≤ 0xEF then
    match bs with
    | b1 :: b2 :: _ =>
      let lo1 := if b = 0xE0 then 0xA0 else 0x80
      let hi1 := if b = 0xED then 0x9F else 0xBF
      if lo1 ≤ b1 && b1 ≤ hi1 && utf8Cont b2 then
        some ((b - 0xE0) * 0x1000 + (b1 - 0x80) * 0x40 + (b2 - 0x80), 2)
      else none
    | _ => none
  else if 0xF0 ≤ b && b ≤ 0xF4 then
    match bs with
    | b1 :: b2 :: b3 :: _ =>
      let lo1 := if b = 0xF0 then 0x90 else 0x80
      let hi1 := if b = 0xF4 then 0x8F else 0xBF
      if lo1 ≤ b1 && b1 ≤ hi1 && utf8Cont b2 && utf8Cont b3 then
        some ((b - 0xF0) * 0x40000 + (b1 - 0x80) * 0x1000 + (b2 - 0x80) * 0x40 + (b3 - 0x80), 3)
      else none
    | _ => none
  else none

/-- Fueled strict UTF-8 decoder; the top-level call supplies `bs.length`
fuel, which always suffices since each step consumes at least one byte. -/
def utf8DecodeGo : Nat → List Nat → Option Str
  | _, [] => some []
  | 0, _ :: _ => none
  | n + 1, b :: bs =>
    match utf8Seq b bs with
    | none => none
    | some (cp, k) =>
      match utf8DecodeGo n (bs.drop k) with
      | none => none
      | some cs => some (Char.ofNat cp :: cs)

/-- Strict `bytes.decode('utf-8')`. -/
def utf8Decode (bs : List Nat) : Option Str := utf8DecodeGo bs.length bs

/-- `bytes.decode('utf-8-sig')`: strip a leading BOM, then decode UTF-8. -/
def utf8SigDecode (bs : List Nat) : Option Str :=
  utf8Decode (if [0xEF, 0xBB, 0xBF].isPrefixOf bs then bs.drop 3 else bs)

/-- Fueled `bytes.decode('utf-8', errors='replace')`: an undecodable byte
is replaced by U+FFFD and skipped.  (This branch of `safe_decode` is
unreachable, see the C10 theorem, so the exact error-recovery granularity
is immaterial; totality is what matters.) -/
def utf8ReplaceGo : Nat → List Nat → Str
  | _, [] => []
  | 0, _ :: _ => []
  | n + 1, b :: bs =>
    match utf8Seq b bs with
    | some (cp, k) => Char.ofNat cp :: utf8ReplaceGo n (bs.drop k)
    | none => Char.ofNat 0xFFFD :: utf8ReplaceGo n bs

/-- `bytes.decode('utf-8', errors='replace')`, which never fails. -/
def utf8Replace (bs : List Nat) : Str := utf8ReplaceGo bs.length bs

/-- One byte of `bytes.decode('cp1252')`.  Bytes `0x81, 0x8D, 0x8F, 0x90,
0x9D` are undefined in cp1252 and raise in CPython. -/
def cp1252Byte (b : Nat) : Option Nat :=
  if b < 0x80 then some b
  else if 0xA0 ≤ b then some b
  else match b with
  | 0x80 => some 0x20AC
  | 0x82 => some 0x201A
  | 0x83 => some 0x0192
  | 0x84 => some 0x201E
  | 0x85 => some 0x2026
  | 0x86 => some 0x2020
  | 0x87 => some 0x2021
  | 0x88 => some 0x02C6
  | 0x89 => some 0x2030
  | 0x8A => some 0x0160
  | 0x8B => some 0x2039
  | 0x8C => some 0x0152
  | 0x8E => some 0x017D
  | 0x91 => some 0x2018
  | 0x92 => some 0x2019
  | 0x93 => some 0x201C
  | 0x94 => some 0x201D
  | 0x95 => some 0x2022
  | 0x96 => some 0x2013
  | 0x97 => some 0x2014
  | 0x98 => some 0x02DC
  | 0x99 => some 0x2122
  | 0x9A => some 0x0161
  | 0x9B => some 0x203A
  | 0x9C => some 0x0153
  | 0x9E => some 0x017E
  | _ => none

/-- One byte of `bytes.decode('iso-8859-15')` (total on bytes). -/
def iso15Byte (b : Nat) : Nat :=
  match b with
  | 0xA4 => 0x20AC
  | 0xA6 => 0x0160
  | 0xA8 => 0x0161
  | 0xB4 => 0x017D
  | 0xB8 => 0x017E
  | 0xBC => 0x0152
  | 0xBD => 0x0153
  | 0xBE => 0x0178
  | _ => b

/-- Map a partial per-byte decoder over a byte list; any failing byte
fails the whole decode, as `bytes.decode` does. -/
def decodeWith (f : Nat → Option Nat) : List Nat → Option Str
  | [] => some []
  | b :: bs =>
    match f b, decodeWith f bs with
    | some c, some cs => some (Char.ofNat c :: cs)
    | _, _ => none

/-- `bytes.decode(enc)` for each candidate encoding; `none` models a
raised `UnicodeDecodeError`.  `latin-1` and `iso-8859-1` are aliases of
the same codec in Python and decode every byte to the equal code point. -/
def pyDecode : Encoding → List Nat → Option Str
  | .utf8, bs => utf8Decode bs
  | .utf8sig, bs => utf8SigDecode bs
  | .cp1252, bs => decodeWith cp1252Byte bs
  | .latin1, bs => some (bs.map Char.ofNat)
  | .iso8859_1, bs => some (bs.map Char.ofNat)
  | .iso8859_15, bs => some (bs.map (fun b => Char.ofNat (iso15Byte b)))
  | .ascii, bs => decodeWith (fun b => if b < 0x80 then some b else none) bs

/-- A single `payload.decode(encoding)` call inside `safe_decode`'s loop,
with the raised exception made explicit. -/
def tryDecodeE (e : Encoding) (bs : List Nat) : Except PyErr Str :=
  match pyDecode e bs with
  | some s => Except.ok s
  | none => Except.error PyErr.unicodeDecodeError

/-- The `encodings` list of lambda_function.py lines 27-32, in source
order: UTF-8, UTF-8 with signature, Windows-1252, Latin-1, ISO-8859-1,
ISO-8859-15, ASCII. -/
def encodingsList : List Encoding :=
  [.utf8, .utf8sig, .cp1252, .latin1, .iso8859_1, .iso8859_15, .ascii]

/-- The `for encoding in encodings_to_try` loop of `safe_decode`
(lines 36-43): each attempt's `UnicodeDecodeError`/`LookupError` is caught
by the `except` clause and the next encoding is tried; the first success
is returned. -/
def decodeLoop : List Encoding → List Nat → Option Str
  | [], _ => none
  | e :: rest, bs =>
    match tryDecodeE e bs with
    | Except.ok s => some s
    | Except.error _ => decodeLoop rest bs

/-- `safe_decode(payload, encodings_to_try)` (lines 35-50): run the
candidate-encoding loop; if it falls through, try UTF-8 with replacement
(wrapped in `try/except Exception`), and as a last resort decode latin-1
(whose exception, if any, would propagate). -/
def safe_decode (payload : List Nat) : Except PyErr Str :=
  match decodeLoop encodingsList payload with
  | some s => Except.ok s
  | none =>
    match (Except.ok (utf8Replace payload) : Except PyErr Str) with
    | Except.ok s => Except.ok s
    | Except.error _ => tryDecodeE .latin1 payload

/-! ### The message model and `extract_html_with_embedded_images` -/

/-- One MIME part as `msg.walk()` yields it, in document order.  `ctMain`
and `ctSub` are the two halves of `get_content_type()`; `payload` is the
byte string returned by `get_payload(decode=True)`; `contentId` is
`part.get('Content-ID', '')` (so the empty string when the header is
absent); `filename` is `get_filename()` (`none` when absent). -/
structure Part where
  ctMain : Str
  ctSub : Str
  payload : List Nat
  contentId : Str
  filename : Option Str
  deriving DecidableEq

/-- A message, represented by the list of parts `msg.walk()` visits, in
depth-first document order (the root/container parts included, with
`multipart` content types). -/
abbrev Msg := List Part

/-- `part.get_content_type()`. -/
def contentTypeOf (p : Part) : Str := p.ctMain ++ '/' :: p.ctSub

/-- Does the part have content type `text/html`? -/
def partIsHtml (p : Part) : Bool := contentTypeOf p = "text/html".data

/-- Does the part have content type `text/plain`? -/
def partIsPlain (p : Part) : Bool := contentTypeOf p = "text/plain".data

/-- Python truthiness of the `html_body` variable (`None` and the empty
string are falsy). -/
def pyTruthy (o : Option Str) : Bool :=
  match o with
  | none => false
  | some s => !s.isEmpty

/-- The fixed text of the plain-text wrapper (lines 73-83) before the
interpolated `plain_text`. -/
def plainPre : Str :=
  ("\n                <!DOCTYPE html>\n                <html>\n                <head>\n                    <meta charset=\"UTF-8\">\n                </head>\n                <body>\n                    <pre>").data

/-- The fixed text of the plain-text wrapper after the interpolated
`plain_text`. -/
def plainPost : Str :=
  ("</pre>\n                </body>\n                </html>\n                ").data

/-- The minimal HTML document built from a decoded `text/plain` body
(lines 73-83). -/
def plainSkeleton (t : Str) : Str := plainPre ++ t ++ plainPost

/-- The `for part in msg.walk()` loop searching for a `text/html` part
(lines 53-60): the first such part's payload is decoded with
`safe_decode` and the loop breaks. -/
def findHtmlLoop : Msg → Except PyErr (Option Str)
  | [] => Except.ok none
  | p :: ps =>
    if partIsHtml p then
      match safe_decode p.payload with
      | Except.ok s => Except.ok (some s)
      | Except.error e => Except.error e
    else findHtmlLoop ps

/-- The `text/plain` fallback loop (lines 63-84): the first `text/plain`
part is decoded and wrapped into the plain-text HTML skeleton. -/
def findPlainLoop : Msg → Except PyErr (Option Str)
  | [] => Except.ok none
  | p :: ps =>
    if partIsPlain p then
      match safe_decode p.payload with
      | Except.ok s => Except.ok (some (plainSkeleton s))
      | Except.error e => Except.error e
    else findPlainLoop ps

/-- Body selection, lines 52-84: prefer the first `text/html` part; if
`html_body` is falsy (`None` or empty), fall back to the first
`text/plain` part; if that also finds nothing, `html_body` keeps its
previous value. -/
def selectBody (msg : Msg) : Except PyErr (Option Str) :=
  match findHtmlLoop msg with
  | Except.error e => Except.error e
  | Except.ok h0 =>
    if pyTruthy h0 then Except.ok h0
    else
      match findPlainLoop msg with
      | Except.error e => Except.error e
      | Except.ok (some t) => Except.ok (some t)
      | Except.ok none => Except.ok h0

/-- The record stored in `embedded_images` for one image part
(lines 103-107). -/
structure ImgInfo where
  data : Str
  mime : Str
  filename : Str
  deriving DecidableEq

/-- The collected-images dictionary, as an insertion-ordered association
list, matching Python `dict` semantics: inserting an existing key updates
the value in place and does not change the order or the size. -/
abbrev ImgDict := List (Str × ImgInfo)

/-- Python `d[k] = v` on an insertion-ordered `dict`. -/
def dictSet (m : ImgDict) (k : Str) (v : ImgInfo) : ImgDict :=
  if (m.lookup k).isSome then
    m.map (fun kv => if kv.1 = k then (k, v) else kv)
  else m ++ [(k, v)]

/-- The key chosen for one image part (lines 91-100):
`content_id or filename or f'image_{len(embedded_images)}'`, where
`content_id` has already been stripped of `<>` and `n` is the current
size of the dictionary. -/
def imgKey (p : Part) (n : Nat) : Str :=
  let cid := stripAngle p.contentId
  if cid ≠ [] then cid
  else
    match p.filename with
    | some f => if f ≠ [] then f else "image_".data ++ (Nat.repr n).data
    | none => "image_".data ++ (Nat.repr n).data

/-- The `ImgInfo` record stored for part `p` under key `k`
(lines 103-107): base64 payload, full mime type, and
`filename or img_key`. -/
def imgEntry (p : Part) (k : Str) : ImgInfo :=
  { data := b64encode p.payload
    mime := contentTypeOf p
    filename :=
      match p.filename with
      | some f => if f ≠ [] then f else k
      | none => k }

/-- One iteration of the image-collection loop (lines 88-107). -/
def collectStep (m : ImgDict) (p : Part) : ImgDict :=
  if p.ctMain = "image".data then
    let k := imgKey p m.length
    dictSet m k (imgEntry p k)
  else m

/-- The image-collection traversal (lines 88-107): every part whose major
content type is `image` is recorded. -/
def collectImages (msg : Msg) : ImgDict := msg.foldl collectStep []

/-- The `data:` URI substituted for an image reference (lines 112-115). -/
def dataUri (info : ImgInfo) : Str :=
  "data:".data ++ info.mime ++ ";base64,".data ++ info.data

/-- One iteration of the substitution loop (lines 110-115): replace
`cid:<key>` occurrences, then bare `<key>` occurrences, by the data URI. -/
def substStep (b : Str) (kv : Str × ImgInfo) : Str :=
  let u := dataUri kv.2
  replaceAll (replaceAll b ("cid:".data ++ kv.1) u) kv.1 u

/-- The substitution loop over the collected images, in dictionary
(insertion) order. -/
def substituteImages (b : Str) (m : ImgDict) : Str := m.foldl substStep b

/-- The fixed text of the finalization wrapper (lines 119-129) before the
interpolated `html_body`. -/
def wrapPre : Str :=
  ("\n        <!DOCTYPE html>\n        <html>\n        <head>\n            <meta charset=\"UTF-8\">\n        </head>\n        <body>\n            ").data

/-- The fixed text of the finalization wrapper after the interpolated
`html_body`. -/
def wrapPost : Str :=
  ("\n        </body>\n        </html>\n        ").data

/-- The minimal HTML skeleton the finalization step wraps a bare body in. -/
def wrapSkeleton (b : Str) : Str := wrapPre ++ b ++ wrapPost

/-- The finalization test of line 118:
`html_body.strip().lower().startswith('<!doctype')` or the same with
`'<html'`. -/
def startsDocOrHtml (b : Str) : Bool :=
  ("<!doctype".data.isPrefixOf (pyLower (pyStrip b))) ||
    ("<html".data.isPrefixOf (pyLower (pyStrip b)))

/-- The finalization step (lines 117-129): wrap the body in the HTML
skeleton unless it already starts with a doctype or `<html>` tag. -/
def wrap (b : Str) : Str := if startsDocOrHtml b then b else wrapSkeleton b

/-- `extract_html_with_embedded_images(msg)` (lines 19-131).  A `None`
body reaching line 118 raises `AttributeError` (`None.strip()`); a
selected body is run through image collection (only when truthy),
substitution, and finalization. -/
def extract_html_with_embedded_images (msg : Msg) : Except PyErr Str :=
  match selectBody msg with
  | Except.error e => Except.error e
  | Except.ok none => Except.error PyErr.attributeError
  | Except.ok (some b) =>
    Except.ok (wrap (if b.isEmpty then b else substituteImages b (collectImages msg)))

/-! ### Sender extraction (`extract_email`)

`extract_email` (lines 14-17) delegates entirely to the Python standard
library's `email.utils.parseaddr`, which is not part of this repository's
sources. -/

/-- Scanner for the first `<` that occurs outside double quotes; returns
the characters after it.  Double quotes toggle the in-quote state, so a
quoted display name may contain commas, `<`, and other special
characters. -/
def findAngleGo : Bool → Str → Option Str
  | _, [] => none
  | inQ, c :: cs =>
    if c = '"' then findAngleGo (!inQ) cs
    else if !inQ && c = '<' then some cs
    else findAngleGo inQ cs

/-- Modelled from the spec: `email.utils.parseaddr` is Python
standard-library code, not part of this repository's sources; only its
address component is modelled, per the spec's contract for sender
extraction (§4.1): the output is the bare address, the display name
(possibly quoted, with commas and special characters) is skipped, a
header with no display name yields the address itself, and malformed
input yields the empty string rather than an error. -/
def parseaddrAddr (s : Str) : Str :=
  match findAngleGo false s with
  | some rest =>
    if rest.any (fun c => c = '>') then rest.takeWhile (fun c => c ≠ '>')
    else []
  | none => pyStrip s

/-- `extract_email(from_header)` (lines 14-17): the address component of
the parsed header. -/
def extract_email (fromHeader : Str) : Str := parseaddrAddr fromHeader

/-! ### Concrete example messages used by counterexamples and witnesses -/

/-- Did an `Except` computation succeed? -/
def exceptIsOk {ε α : Type} : Except ε α → Bool
  | Except.ok _ => true
  | Except.error _ => false

/-- A `multipart/mixed` container part, as `msg.walk()` yields for the
root of a multipart message. -/
def exMixed : Part := ⟨"multipart".data, "mixed".data, [], [], none⟩

/-- A `text/html` part whose payload decodes (UTF-8) to `"hi"`. -/
def exHtmlHi : Part := ⟨"text".data, "html".data, [104, 105], [], none⟩

/-- A `text/html` part with an empty byte payload (decodes to `""`). -/
def exHtmlEmpty : Part := ⟨"text".data, "html".data, [], [], none⟩

/-- A `text/plain` part whose payload decodes to `"hey"`. -/
def exPlainHey : Part := ⟨"text".data, "plain".data, [104, 101, 121], [], none⟩

/-- A `text/html` part whose payload decodes to `"x"`. -/
def exHtmlX : Part := ⟨"text".data, "html".data, [120], [], none⟩

/-- An `image/png` part with Content-ID `<k>` and payload bytes 1,2,3
(base64 `AQID`). -/
def exImgK : Part := ⟨"image".data, "png".data, [1, 2, 3], "<k>".data, none⟩

/-- An `image/png` part with Content-ID `<a>`. -/
def exImgA0 : Part := ⟨"image".data, "png".data, [0], "<a>".data, none⟩

/-- A second `image/png` part with the same Content-ID `<a>`. -/
def exImgA1 : Part := ⟨"image".data, "png".data, [1], "<a>".data, none⟩

/-- An `image/png` part with no Content-ID and no filename. -/
def exImgAnon : Part := ⟨"image".data, "png".data, [2], [], none⟩

/-- A message with neither a `text/html` nor a `text/plain` part. -/
def msgC1 : Msg := [exMixed, exImgK]

/-- A message whose only part is a `text/html` part saying `hi`. -/
def msgC2 : Msg := [exHtmlHi]

/-- A message with a `text/html` part that decodes to the empty string
and a `text/plain` part saying `hey`. -/
def msgC3 : Msg := [exMixed, exHtmlEmpty, exPlainHey]

/-- A message with body `x` and one collected image whose key `k` is
never referenced from the body. -/
def msgC4 : Msg := [exMixed, exHtmlX, exImgK]

/-- A message prefix containing two images that share the Content-ID
`a`. -/
def preC7 : Msg := [exMixed, exHtmlX, exImgA0, exImgA1]

/-- `preC7` followed by a keyless image part: three images in all. -/
def msgC7 : Msg := [exMixed, exHtmlX, exImgA0, exImgA1, exImgAnon]

/-- A message with a nonempty `text/html` part and a `text/plain` part. -/
def msgC3w : Msg := [exHtmlHi, exPlainHey]

/-- The body used by the C4 witness: it references image key `XQW` via
the `cid:` scheme. -/
def bC4w : Str := "see cid:XQW here".data

/-- The image record used by the C4 witness: empty payload, so its data
URI is `data:image/png;base64,` and shares no character with the key
`XQW`. -/
def iC4w : ImgInfo := ⟨[], "image/png".data, "f".data⟩

/-! ## Lemmas about the decoding loop -/

theorem decodeLoop_append (L1 L2 : List Encoding) (bs : List Nat) :
    decodeLoop (L1 ++ L2) bs =
      match decodeLoop L1 bs with
      | some s => some s
      | none => decodeLoop L2 bs := by
  induction L1 with
  | nil => rfl
  | cons e rest ih =>
    cases h : tryDecodeE e bs with
    | ok s => simp [decodeLoop, h]
    | error e' => simp [decodeLoop, h, ih]

theorem decodeLoop_first (L : List Encoding) (bs : List Nat) (i : Nat) (s : Str)
    (hi : i < L.length)
    (hprev : ∀ j, j < i → exceptIsOk (tryDecodeE (L.getD j .ascii) bs) = false)
    (hcur : tryDecodeE (L.getD i .ascii) bs = Except.ok s) :
    decodeLoop L bs = some s := by
  induction L generalizing i with
  | nil => exact absurd hi (by simp)
  | cons e rest ih =>
    cases i with
    | zero =>
      rw [List.getD_cons_zero] at hcur
      simp [decodeLoop, hcur]
    | succ n =>
      have h0 := hprev 0 (Nat.succ_pos n)
      rw [List.getD_cons_zero] at h0
      cases he : tryDecodeE e bs with
      | ok s' => rw [he] at h0; exact absurd h0 (by simp [exceptIsOk])
      | error e' =>
        simp only [decodeLoop, he]
        refine ih n (by simpa using hi) (fun j hj => ?_) (by simpa using hcur)
        have := hprev (j + 1) (Nat.succ_lt_succ hj)
        simpa using this

theorem latin1_total (bs : List Nat) :
    tryDecodeE .latin1 bs = Except.ok (bs.map Char.ofNat) := rfl

/-- C5: for every byte sequence, `safe_decode` returns a string; every
decode failure inside it is caught and resolved by a later attempt or by
the replacement fallback, so no exception escapes. -/
theorem C5_safe_decode_total (payload : List Nat) (hbytes : ∀ b ∈ payload, b < 256) :
    ∃ s, safe_decode payload = Except.ok s := by
  cases h : decodeLoop encodingsList payload with
  | some s => exact ⟨s, by simp [safe_decode, h]⟩
  | none => exact ⟨utf8Replace payload, by simp [safe_decode, h]⟩

theorem C5_safe_decode_total_witness :
    (∀ b ∈ [104, 105], b < 256) ∧ ∃ s, safe_decode [104, 105] = Except.ok s :=
  ⟨by decide, C5_safe_decode_total [104, 105] (by decide)⟩

/-- C6: `safe_decode` attempts the candidate encodings in exactly the
priority order UTF-8, UTF-8 with signature, Windows-1252, Latin-1,
ISO-8859-1, ISO-8859-15, ASCII, and returns the result of the first
encoding in that order that successfully decodes the bytes. -/
theorem C6_first_success_order (bs : List Nat) (i : Nat) (s : Str)
    (hi : i < encodingsList.length)
    (hprev : ∀ j, j < i → exceptIsOk (tryDecodeE (encodingsList.getD j .ascii) bs) = false)
    (hcur : tryDecodeE (encodingsList.getD i .ascii) bs = Except.ok s) :
    safe_decode bs = Except.ok s := by
  have h := decodeLoop_first encodingsList bs i s hi hprev hcur
  simp [safe_decode, h]

theorem C6_first_success_order_witness :
    safe_decode [255] = Except.ok [Char.ofNat 255] :=
  C6_first_success_order [255] 2 [Char.ofNat 255] (by decide)
    (by decide) rfl

/-- C10: for every byte sequence, the candidate-encoding loop of
`safe_decode` already succeeds within its first four entries (at latest
at `latin-1`, which decodes every byte sequence), so the two post-loop
fallback branches (UTF-8 with replacement, forced latin-1) are never
taken. -/
theorem C10_fallback_unreachable (bs : List Nat) (hbytes : ∀ b ∈ bs, b < 256) :
    ∃ s, decodeLoop (encodingsList.take 4) bs = some s ∧
      safe_decode bs = Except.ok s := by
  have htake : ∃ s, decodeLoop (encodingsList.take 4) bs = some s := by
    show ∃ s, decodeLoop [.utf8, .utf8sig, .cp1252, .latin1] bs = some s
    cases h1 : tryDecodeE .utf8 bs with
    | ok s => exact ⟨s, by simp [decodeLoop, h1]⟩
    | error e1 =>
      cases h2 : tryDecodeE .utf8sig bs with
      | ok s => exact ⟨s, by simp [decodeLoop, h1, h2]⟩
      | error e2 =>
        cases h3 : tryDecodeE .cp1252 bs with
        | ok s => exact ⟨s, by simp [decodeLoop, h1, h2, h3]⟩
        | error e3 =>
          exact ⟨bs.map Char.ofNat, by simp [decodeLoop, h1, h2, h3, latin1_total]⟩
  obtain ⟨s, hs⟩ := htake
  refine ⟨s, hs, ?_⟩
  have hsplit : encodingsList = encodingsList.take 4 ++ encodingsList.drop 4 := by decide
  have hfull : decodeLoop encodingsList bs = some s := by
    rw [hsplit, decodeLoop_append, hs]
  simp [safe_decode, hfull]

theorem C10_fallback_unreachable_witness :
    ∃ s, decodeLoop (encodingsList.take 4) [0x81] = some s ∧
      safe_decode [0x81] = Except.ok s :=
  C10_fallback_unreachable [0x81] (by decide)

/-! ## Lemmas about stripping and finalization -/

theorem dropWhile_nil_forall {p : Char → Bool} (l : Str) (h : l.dropWhile p = []) :
    ∀ c ∈ l, p c = true := by
  induction l with
  | nil => simp
  | cons a t ih =>
    rw [List.dropWhile_cons] at h
    by_cases hp : p a = true
    · rw [if_pos hp] at h
      intro c hc
      rcases List.mem_cons.mp hc with rfl | hct
      · exact hp
      · exact ih h c hct
    · rw [if_neg hp] at h
      exact absurd h (by simp)

theorem stripTrailing_append (x y : Str) (h : ∃ c ∈ y, isSpaceB c = false) :
    stripTrailing (x ++ y) = x ++ stripTrailing y := by
  obtain ⟨c, hc, hcf⟩ := h
  cases hd : y.reverse.dropWhile isSpaceB with
  | nil =>
    have hsp := dropWhile_nil_forall y.reverse hd c (List.mem_reverse.mpr hc)
    rw [hcf] at hsp
    exact absurd hsp (by simp)
  | cons a t =>
    unfold stripTrailing
    rw [List.reverse_append, List.dropWhile_append, hd]
    simp [List.reverse_append]

theorem pyStrip_wrapSkeleton_starts (b : Str) :
    "<!doctype".data <+: pyLower (pyStrip (wrapSkeleton b)) := by
  cases hd : wrapPre.dropWhile isSpaceB with
  | nil => exact absurd hd (by decide)
  | cons a t =>
    have hexp : pyStrip (wrapSkeleton b) = (a :: t) ++ (b ++ stripTrailing wrapPost) := by
      unfold pyStrip wrapSkeleton stripLeading
      rw [List.append_assoc, List.dropWhile_append, hd]
      rw [if_neg (by simp)]
      rw [← List.append_assoc, ← List.append_assoc]
      rw [stripTrailing_append _ wrapPost ⟨'<', by decide, by decide⟩]
    rw [hexp, pyLower, List.map_append]
    have h1 : "<!doctype".data <+: (a :: t).map Char.toLower := by
      rw [← hd]
      decide
    exact h1.trans (List.prefix_append _ _)

theorem wrap_startsDocOrHtml (b : Str) : startsDocOrHtml (wrap b) = true := by
  by_cases h : startsDocOrHtml b
  · simpa [wrap, h] using h
  · rw [wrap, if_neg (by simp [h])]
    unfold startsDocOrHtml
    rw [Bool.or_eq_true]
    exact Or.inl (( List.isPrefixOf_iff_prefix).mpr (pyStrip_wrapSkeleton_starts b))

/-- C9: the finalization step is idempotent: a document that already
passes the doctype/html test is returned unchanged, and a freshly wrapped
document passes the test, so wrapping twice never double-wraps. -/
theorem C9_finalization_idempotent (b : Str) : wrap (wrap b) = wrap b := by
  by_cases h : startsDocOrHtml b
  · simp [wrap, h]
  · have h2 : startsDocOrHtml (wrapSkeleton b) = true := by
      have hw := wrap_startsDocOrHtml b
      rw [wrap, if_neg (by simp [h])] at hw
      exact hw
    simp [wrap, h, h2]

/-- C2 (amended): every document produced by
`extract_html_with_embedded_images` begins, after stripping surrounding
whitespace and lowercasing, with `<!doctype` or `<html`; the raw string
may begin with the wrapper's leading newline and indentation. -/
theorem C2_amended_output_shape (msg : Msg) (out : Str)
    (h : extract_html_with_embedded_images msg = Except.ok out) :
    "<!doctype".data <+: pyLower (pyStrip out) ∨
      "<html".data <+: pyLower (pyStrip out) := by
  have hout : ∃ b, out = wrap b := by
    unfold extract_html_with_embedded_images at h
    cases hsel : selectBody msg with
    | error e => rw [hsel] at h; exact absurd h (by simp)
    | ok o =>
      cases o with
      | none => rw [hsel] at h; exact absurd h (by simp)
      | some b =>
        rw [hsel] at h
        simp only [Except.ok.injEq] at h
        exact ⟨_, h.symm⟩
  obtain ⟨b, rfl⟩ := hout
  have hw := wrap_startsDocOrHtml b
  rw [startsDocOrHtml, Bool.or_eq_true] at hw
  rcases hw with h1 | h1
  · exact Or.inl (( List.isPrefixOf_iff_prefix).mp h1)
  · exact Or.inr (( List.isPrefixOf_iff_prefix).mp h1)

theorem C2_amended_output_shape_witness :
    "<!doctype".data <+:
        pyLower (pyStrip ((extract_html_with_embedded_images msgC2).toOption.getD [])) ∨
      "<html".data <+:
        pyLower (pyStrip ((extract_html_with_embedded_images msgC2).toOption.getD [])) :=
  C2_amended_output_shape msgC2 _ rfl

/-- C2 counterexample: the message whose `text/html` part says `hi`
produces a document, but that document begins with a newline character,
not with `<!DOCTYPE html>` or `<html>`. -/
theorem C2_counterexample_leading_whitespace :
    exceptIsOk (extract_html_with_embedded_images msgC2) = true ∧
    ((extract_html_with_embedded_images msgC2).toOption.getD []).head? = some '\n' ∧
    ¬ ("<!DOCTYPE html>".data <+: (extract_html_with_embedded_images msgC2).toOption.getD []) ∧
    ¬ ("<html>".data <+: (extract_html_with_embedded_images msgC2).toOption.getD []) := by
  decide

/-! ## Body selection: claims C3 and C1 -/

theorem findHtmlLoop_find (msg : Msg) (p : Part) (b : Str)
    (h1 : msg.find? partIsHtml = some p) (h2 : safe_decode p.payload = Except.ok b) :
    findHtmlLoop msg = Except.ok (some b) := by
  induction msg with
  | nil => exact absurd h1 (by simp)
  | cons q qs ih =>
    by_cases hq : partIsHtml q
    · rw [List.find?_cons_of_pos _ hq] at h1
      have hqp : q = p := by simpa using h1
      subst hqp
      simp [findHtmlLoop, hq, h2]
    · have h1' : qs.find? partIsHtml = some p := by
        rwa [List.find?_cons_of_neg _ (by simpa using hq)] at h1
      simp [findHtmlLoop, hq, ih h1']

/-- C3 (amended): if the first `text/html` part of the message decodes to
a nonempty string, it is selected as the body and the `text/plain` search
is never consulted; a `text/html` part that decodes to the empty string
is treated as absent (Python falsiness) and selection falls through to
`text/plain`. -/
theorem C3_amended_html_priority (msg : Msg) (p : Part) (b : Str)
    (h1 : msg.find? partIsHtml = some p)
    (h2 : safe_decode p.payload = Except.ok b)
    (h3 : b ≠ []) :
    selectBody msg = Except.ok (some b) := by
  have hh := findHtmlLoop_find msg p b h1 h2
  have ht : pyTruthy (some b) = true := by
    cases b with
    | nil => exact absurd rfl h3
    | cons c cs => simp [pyTruthy]
  simp [selectBody, hh, ht]

theorem C3_amended_html_priority_witness :
    selectBody msgC3w = Except.ok (some "hi".data) :=
  C3_amended_html_priority msgC3w exHtmlHi "hi".data (by decide) rfl (by decide)

set_option maxRecDepth 8192 in
/-- C3 counterexample: `msgC3` contains a `text/html` part (whose payload
decodes to the empty string), yet the `text/plain` part is selected: the
output contains the plain-text conversion `<pre>hey</pre>`. -/
theorem C3_counterexample_empty_html_falls_through :
    (msgC3.any partIsHtml = true) ∧
    exceptIsOk (extract_html_with_embedded_images msgC3) = true ∧
    ("<pre>hey</pre>".data <:+: (extract_html_with_embedded_images msgC3).toOption.getD []) := by
  decide

/-- C1: on a message with neither a `text/html` nor a `text/plain` part,
`extract_html_with_embedded_images` does not return an absence signal: it
raises `AttributeError`, because the `None` body reaches
`html_body.strip()` on line 118. -/
theorem C1_code_bug_attribute_error :
    (msgC1.all (fun p => !(partIsHtml p) && !(partIsPlain p)) = true) ∧
    extract_html_with_embedded_images msgC1 = Except.error PyErr.attributeError :=
  ⟨by decide, rfl⟩

/-! ## Lemmas about textual replacement: claim C4 -/

theorem length_drop_cons_le (c : Char) (cs k : Str) (hk : k ≠ []) :
    ((c :: cs).drop k.length).length ≤ cs.length := by
  cases k with
  | nil => exact absurd rfl hk
  | cons a t =>
    simp only [List.length_cons, List.drop_succ_cons, List.length_drop]
    omega

theorem infix_append_split {l a b : Str} (h : l <:+: a ++ b) :
    l <:+: a ∨ l <:+: b ∨
      ∃ x y, l = x ++ y ∧ x ≠ [] ∧ y ≠ [] ∧ x <:+ a ∧ y <+: b := by
  obtain ⟨s, t, hst⟩ := h
  rw [List.append_assoc] at hst
  rcases List.append_eq_append_iff.mp hst with ⟨m, hm1, hm2⟩ | ⟨m, hm1, hm2⟩
  · -- hm1 : a = s ++ m, hm2 : l ++ t = m ++ b
    rcases List.append_eq_append_iff.mp hm2 with ⟨w, hw1, hw2⟩ | ⟨w, hw1, hw2⟩
    · -- hw1 : m = l ++ w, hw2 : t = w ++ b
      exact Or.inl ⟨s, w, by rw [hm1, hw1, List.append_assoc]⟩
    · -- hw1 : l = m ++ w, hw2 : b = w ++ t
      by_cases hm : m = []
      · subst hm
        simp only [List.nil_append] at hw1
        exact Or.inr (Or.inl ⟨[], t, by rw [List.nil_append, hw2, hw1]⟩)
      · by_cases hw : w = []
        · subst hw
          rw [List.append_nil] at hw1
          exact Or.inl ⟨s, [], by rw [List.append_nil, hm1, hw1]⟩
        · exact Or.inr (Or.inr ⟨m, w, hw1, hm, hw, ⟨s, hm1.symm⟩, ⟨t, hw2.symm⟩⟩)
  · -- hm1 : s = a ++ m, hm2 : b = m ++ (l ++ t)
    exact Or.inr (Or.inl ⟨m, t, by rw [hm2, List.append_assoc]⟩)

theorem replaceAllGo_no_match (fuel : Nat) (s k u : Str) (hf : s.length ≤ fuel)
    (h : ¬ k <:+: s) : replaceAllGo fuel s k u = s := by
  induction fuel generalizing s with
  | zero => cases s <;> rfl
  | succ n ih =>
    cases s with
    | nil => rfl
    | cons c cs =>
      have hf' : cs.length ≤ n := by
        simp only [List.length_cons] at hf
        omega
      have hp : ¬ k.isPrefixOf (c :: cs) = true := by
        intro hp'
        exact h (( List.isPrefixOf_iff_prefix).mp hp').isInfix
      have hcs : ¬ k <:+: cs := fun hcon => h (List.infix_cons_iff.mpr (Or.inr hcon))
      simp only [replaceAllGo, if_neg hp]
      rw [ih cs hf' hcs]

theorem replaceAllGo_inserts (fuel : Nat) (s k u : Str) (hf : s.length ≤ fuel)
    (hk : k ≠ []) (h : k <:+: s) : u <:+: replaceAllGo fuel s k u := by
  induction fuel generalizing s with
  | zero =>
    cases s with
    | nil => exact absurd (List.infix_nil.mp h) hk
    | cons c cs => exact absurd hf (by simp)
  | succ n ih =>
    cases s with
    | nil => exact absurd (List.infix_nil.mp h) hk
    | cons c cs =>
      have hf' : cs.length ≤ n := by
        simp only [List.length_cons] at hf
        omega
      by_cases hp : k.isPrefixOf (c :: cs) = true
      · simp only [replaceAllGo, if_pos hp]
        exact (List.prefix_append u _).isInfix
      · simp only [replaceAllGo, if_neg hp]
        have hcs : k <:+: cs := by
          rcases List.infix_cons_iff.mp h with hpre | hinf
          · exact absurd (( List.isPrefixOf_iff_prefix).mpr hpre) hp
          · exact hinf
        exact List.infix_cons_iff.mpr (Or.inr (ih cs hf' hcs))

theorem prefix_transfer (fuel : Nat) (s k u w : Str) (hf : s.length ≤ fuel)
    (hu : u ≠ []) (hw : w ≠ []) (hwu : ∀ c ∈ w, c ∉ u)
    (h : w <+: replaceAllGo fuel s k u) : w <+: s := by
  induction fuel generalizing s w with
  | zero => cases s <;> exact h
  | succ n ih =>
    cases s with
    | nil => exact absurd (List.prefix_nil.mp h) hw
    | cons c cs =>
      have hf' : cs.length ≤ n := by
        simp only [List.length_cons] at hf
        omega
      by_cases hp : k.isPrefixOf (c :: cs) = true
      · simp only [replaceAllGo, if_pos hp] at h
        cases w with
        | nil => exact absurd rfl hw
        | cons e w' =>
          cases u with
          | nil => exact absurd rfl hu
          | cons d u' =>
            rw [List.cons_append, List.cons_prefix_cons] at h
            have hed : e ∈ (d :: u' : Str) := h.1 ▸ List.mem_cons_self _ _
            exact absurd hed (hwu e (List.mem_cons_self e w'))
      · simp only [replaceAllGo, if_neg hp] at h
        cases w with
        | nil => exact absurd rfl hw
        | cons e w' =>
          rw [List.cons_prefix_cons] at h
          obtain ⟨rfl, hw'⟩ := h
          by_cases hwnil : w' = []
          · subst hwnil
            exact List.cons_prefix_cons.mpr ⟨rfl, List.nil_prefix⟩
          · have hrec := ih cs w' hf' hwnil
              (fun x hx => hwu x (List.mem_cons_of_mem _ hx)) hw'
            exact List.cons_prefix_cons.mpr ⟨rfl, hrec⟩

theorem prefix_preserved (fuel : Nat) (s k u v : Str) (hk : k ≠ [])
    (hv : v <+: s) (hd : ∀ c ∈ v, c ∉ k) : v <+: replaceAllGo fuel s k u := by
  induction fuel generalizing s v with
  | zero => cases s <;> exact hv
  | succ n ih =>
    cases s with
    | nil => exact hv
    | cons c cs =>
      by_cases hp : k.isPrefixOf (c :: cs) = true
      · simp only [replaceAllGo, if_pos hp]
        cases v with
        | nil => exact List.nil_prefix
        | cons e v' =>
          have hvc : e = c := (List.cons_prefix_cons.mp hv).1
          have hkpre := ( List.isPrefixOf_iff_prefix).mp hp
          cases k with
          | nil => exact absurd rfl hk
          | cons d k' =>
            have hdc : d = c := (List.cons_prefix_cons.mp hkpre).1
            have hmem : e ∈ (d :: k' : Str) := by
              rw [hvc, hdc]
              exact List.mem_cons_self _ _
            exact absurd hmem (hd e (List.mem_cons_self _ _))
      · simp only [replaceAllGo, if_neg hp]
        cases v with
        | nil => exact List.nil_prefix
        | cons e v' =>
          have h1 := List.cons_prefix_cons.mp hv
          refine List.cons_prefix_cons.mpr ⟨h1.1, ?_⟩
          exact ih cs v' h1.2 (fun x hx => hd x (List.mem_cons_of_mem _ hx))

theorem infix_u_preserved (fuel : Nat) (s k u : Str) (hk : k ≠ [])
    (hku : ∀ c ∈ k, c ∉ u) (h : u <:+: s) : u <:+: replaceAllGo fuel s k u := by
  induction fuel generalizing s with
  | zero => cases s <;> exact h
  | succ n ih =>
    cases s with
    | nil => exact h
    | cons c cs =>
      by_cases hp : k.isPrefixOf (c :: cs) = true
      · simp only [replaceAllGo, if_pos hp]
        exact (List.prefix_append u _).isInfix
      · simp only [replaceAllGo, if_neg hp]
        rcases List.infix_cons_iff.mp h with hpre | hinf
        · cases u with
          | nil => exact List.nil_infix
          | cons d u' =>
            have h1 := List.cons_prefix_cons.mp hpre
            have h2 : u' <+: replaceAllGo n cs k (d :: u') :=
              prefix_preserved n cs k (d :: u') u' hk h1.2
                (fun x hx hxk => hku x hxk (List.mem_cons_of_mem _ hx))
            exact List.infix_cons_iff.mpr
              (Or.inl (List.cons_prefix_cons.mpr ⟨h1.1, h2⟩))
        · exact List.infix_cons_iff.mpr (Or.inr (ih cs hinf))

theorem replaceAllGo_no_k (fuel : Nat) (s k u : Str) (hf : s.length ≤ fuel)
    (hk : k ≠ []) (hu : u ≠ []) (hku : ∀ c ∈ k, c ∉ u) :
    ¬ k <:+: replaceAllGo fuel s k u := by
  induction fuel generalizing s with
  | zero =>
    cases s with
    | nil => exact fun hcon => hk (List.infix_nil.mp hcon)
    | cons c cs => exact absurd hf (by simp)
  | succ n ih =>
    cases s with
    | nil => exact fun hcon => hk (List.infix_nil.mp hcon)
    | cons c cs =>
      have hf' : cs.length ≤ n := by
        simp only [List.length_cons] at hf
        omega
      by_cases hp : k.isPrefixOf (c :: cs) = true
      · simp only [replaceAllGo, if_pos hp]
        intro hcon
        have hdrop : ((c :: cs).drop k.length).length ≤ n :=
          le_trans (length_drop_cons_le c cs k hk) hf'
        rcases infix_append_split hcon with h1 | h2 | h3
        · cases k with
          | nil => exact hk rfl
          | cons d k' =>
            exact hku d (List.mem_cons_self _ _) (h1.subset (List.mem_cons_self _ _))
        · exact ih _ hdrop h2
        · obtain ⟨x, y, hxy, hxne, hyne, hxsuf, hypre⟩ := h3
          cases x with
          | nil => exact hxne rfl
          | cons d x' =>
            have hdk : d ∈ k := by
              rw [hxy]
              exact List.mem_append_left _ (List.mem_cons_self _ _)
            have hdu : d ∈ u := hxsuf.subset (List.mem_cons_self _ _)
            exact hku d hdk hdu
      · simp only [replaceAllGo, if_neg hp]
        intro hcon
        rcases List.infix_cons_iff.mp hcon with hpre | hinf
        · cases k with
          | nil => exact hk rfl
          | cons d k' =>
            have h1 := List.cons_prefix_cons.mp hpre
            by_cases hk' : k' = []
            · subst hk'
              have hpc : (d :: [] : Str) <+: c :: cs := by
                rw [h1.1]
                exact List.cons_prefix_cons.mpr ⟨rfl, List.nil_prefix⟩
              exact absurd (( List.isPrefixOf_iff_prefix).mpr hpc) hp
            · have hchars : ∀ x ∈ k', x ∉ u :=
                fun x hx => hku x (List.mem_cons_of_mem _ hx)
              have h2 : k' <+: cs :=
                prefix_transfer n cs (d :: k') u k' hf' hu hk' hchars h1.2
              have hpc : (d :: k' : Str) <+: c :: cs :=
                List.cons_prefix_cons.mpr ⟨h1.1, h2⟩
              exact absurd (( List.isPrefixOf_iff_prefix).mpr hpc) hp
        · exact ih cs hf' hinf

theorem dataUri_ne_nil (info : ImgInfo) : dataUri info ≠ [] := by
  unfold dataUri
  exact List.append_ne_nil_of_left_ne_nil
    (List.append_ne_nil_of_left_ne_nil
      (List.append_ne_nil_of_left_ne_nil (by decide) _) _) _

/-- C4 (amended): substitution replaces, for each key in insertion order,
first `cid:<key>` and then bare `<key>` occurrences by the data URI.  For
a key none of whose characters occur in its own data URI, the key's own
substitution step leaves no occurrence of `<key>` (and hence none of
`cid:<key>`), and yields a body containing the data URI whenever the body
entering the step referenced the key (as `cid:<key>` or bare).  Without
these conditions neither containment guarantee holds unconditionally (see
the counterexample: an unreferenced key contributes no URI at all, and
shared characters between keys and URIs can reintroduce `cid:<key>`). -/
theorem C4_amended_substitution (b k : Str) (info : ImgInfo) (hk : k ≠ [])
    (hchars : ∀ c ∈ k, c ∉ dataUri info) :
    ¬ (k <:+: substStep b (k, info)) ∧
    ¬ (("cid:".data ++ k) <:+: substStep b (k, info)) ∧
    ((("cid:".data ++ k) <:+: b ∨ k <:+: b) →
      dataUri info <:+: substStep b (k, info)) := by
  have hu : dataUri info ≠ [] := dataUri_ne_nil info
  have hcid_ne : ("cid:".data ++ k) ≠ [] :=
    List.append_ne_nil_of_left_ne_nil (by decide) _
  have hsub : substStep b (k, info) =
      replaceAll (replaceAll b ("cid:".data ++ k) (dataUri info)) k (dataUri info) := rfl
  have hnok : ¬ k <:+:
      replaceAll (replaceAll b ("cid:".data ++ k) (dataUri info)) k (dataUri info) :=
    replaceAllGo_no_k _ _ k (dataUri info) le_rfl hk hu hchars
  refine ⟨by rw [hsub]; exact hnok, ?_, ?_⟩
  · rw [hsub]
    intro hcon
    exact hnok ((show k <:+: "cid:".data ++ k from
      (List.suffix_append _ _).isInfix).trans hcon)
  · intro hor
    rw [hsub]
    by_cases hcid : ("cid:".data ++ k) <:+: b
    · have h1 : dataUri info <:+: replaceAll b ("cid:".data ++ k) (dataUri info) :=
        replaceAllGo_inserts b.length b _ _ le_rfl hcid_ne hcid
      exact infix_u_preserved _ _ k (dataUri info) hk hchars h1
    · have hbare : k <:+: b := by
        rcases hor with hcid' | hbare'
        · exact absurd hcid' hcid
        · exact hbare'
      have hr1b : replaceAll b ("cid:".data ++ k) (dataUri info) = b :=
        replaceAllGo_no_match b.length b _ _ le_rfl hcid
      rw [hr1b]
      exact replaceAllGo_inserts b.length b k (dataUri info) le_rfl hk hbare

theorem C4_amended_substitution_witness :
    ¬ ("XQW".data <:+: substStep bC4w ("XQW".data, iC4w)) ∧
    dataUri iC4w <:+: substStep bC4w ("XQW".data, iC4w) :=
  ⟨(C4_amended_substitution bC4w "XQW".data iC4w (by decide) (by decide)).1,
   (C4_amended_substitution bC4w "XQW".data iC4w (by decide) (by decide)).2.2
     (Or.inl (by decide))⟩

set_option maxRecDepth 8192 in
/-- C4 counterexample: `msgC4` collects exactly one image, keyed `k`, but
its body `x` never references that key, so the final output contains no
`data:` URI at all — the claim's unconditional `data:`-URI containment
fails. -/
theorem C4_counterexample_unreferenced_key :
    ((collectImages msgC4).map Prod.fst = ["k".data]) ∧
    exceptIsOk (extract_html_with_embedded_images msgC4) = true ∧
    ¬ ("data:image/png;base64,AQID".data <:+:
        (extract_html_with_embedded_images msgC4).toOption.getD []) := by
  decide

/-! ## Image keying: claim C7 -/

theorem collectImages_append_singleton (pre : Msg) (p : Part) :
    collectImages (pre ++ [p]) = collectStep (collectImages pre) p := by
  simp [collectImages, List.foldl_append]

/-- C7 (amended): an image part is stored under its `<>`-stripped
content-id when that is nonempty, else under its filename when that is
present and nonempty, else under the synthetic key `image_<n>` where `n`
is the current number of entries in the collected-images map — the number
of distinct keys so far, which is smaller than the number of images
already collected when earlier images shared a key (duplicate keys
overwrite in place and do not grow the map). -/
theorem C7_amended_image_keys (pre : Msg) (p : Part) (himg : p.ctMain = "image".data) :
    (stripAngle p.contentId ≠ [] →
      collectImages (pre ++ [p]) =
        dictSet (collectImages pre) (stripAngle p.contentId)
          (imgEntry p (stripAngle p.contentId))) ∧
    (stripAngle p.contentId = [] → ∀ f, p.filename = some f → f ≠ [] →
      collectImages (pre ++ [p]) = dictSet (collectImages pre) f (imgEntry p f)) ∧
    (stripAngle p.contentId = [] → (p.filename = none ∨ p.filename = some []) →
      collectImages (pre ++ [p]) =
        dictSet (collectImages pre)
          ("image_".data ++ (Nat.repr (collectImages pre).length).data)
          (imgEntry p ("image_".data ++ (Nat.repr (collectImages pre).length).data))) := by
  rw [collectImages_append_singleton]
  refine ⟨?_, ?_, ?_⟩
  · intro h1
    simp [collectStep, himg, imgKey, h1]
  · intro h1 f hf hfne
    simp [collectStep, himg, imgKey, h1, hf, hfne]
  · intro h1 h2
    rcases h2 with h2 | h2 <;> simp [collectStep, himg, imgKey, h1, h2]

theorem C7_amended_image_keys_witness :
    collectImages (preC7 ++ [exImgAnon]) =
      dictSet (collectImages preC7)
        ("image_".data ++ (Nat.repr (collectImages preC7).length).data)
        (imgEntry exImgAnon
          ("image_".data ++ (Nat.repr (collectImages preC7).length).data)) :=
  (C7_amended_image_keys preC7 exImgAnon (by decide)).2.2 (by decide) (Or.inl rfl)

/-- C7 counterexample: `msgC7` contains three image parts, the first two
sharing content-id `a`.  The keyless third image receives key `image_1`
(the map then holds one entry), not `image_2` as the claim's "number of
images already collected" reading predicts. -/
theorem C7_counterexample_duplicate_cid :
    ((collectImages msgC7).map Prod.fst = ["a".data, "image_1".data]) ∧
    ("image_2".data ∉ (collectImages msgC7).map Prod.fst) ∧
    ((msgC7.filter (fun p => decide (p.ctMain = "image".data))).length = 3) := by
  decide

/-! ## Sender extraction: claim C8 -/

theorem findAngleGo_skip_quoted (name rest : Str) (h : '"' ∉ name) :
    findAngleGo true (name ++ rest) = findAngleGo true rest := by
  induction name with
  | nil => rfl
  | cons c cs ih =>
    have hc : ¬ c = '"' := fun hcq => h (hcq ▸ List.mem_cons_self _ _)
    simp only [List.cons_append, findAngleGo, if_neg hc, Bool.not_true, Bool.false_and,
      Bool.false_eq_true, if_false]
    exact ih (fun hm => h (List.mem_cons_of_mem _ hm))

theorem findAngleGo_no_angle (q : Bool) (s : Str) (h : '<' ∉ s) :
    findAngleGo q s = none := by
  induction s generalizing q with
  | nil => rfl
  | cons c cs ih =>
    have hc : (decide (c = '<')) = false := by
      simp only [decide_eq_false_iff_not]
      exact fun h' => h (h' ▸ List.mem_cons_self _ _)
    have hrest : '<' ∉ cs := fun hm => h (List.mem_cons_of_mem _ hm)
    by_cases hq : c = '"'
    · simp only [findAngleGo, if_pos hq]
      exact ih _ hrest
    · simp only [findAngleGo, if_neg hq, hc, Bool.and_false, Bool.false_eq_true, if_false]
      exact ih _ hrest

theorem dropWhile_eq_self_of_false {p : Char → Bool} (l : Str)
    (h : ∀ c ∈ l, p c = false) : l.dropWhile p = l := by
  cases l with
  | nil => rfl
  | cons c cs =>
    rw [List.dropWhile_cons, if_neg (by simp [h c (List.mem_cons_self _ _)])]

theorem pyStrip_eq_self (l : Str) (h : ∀ c ∈ l, isSpaceB c = false) : pyStrip l = l := by
  unfold pyStrip stripLeading stripTrailing
  rw [dropWhile_eq_self_of_false l h]
  rw [dropWhile_eq_self_of_false l.reverse (fun c hc => h c (List.mem_reverse.mp hc))]
  exact List.reverse_reverse l

/-- C8: sender extraction returns only the bare address component: a
quoted display name (which may contain commas and special characters) is
skipped and the angle-bracketed address returned; a header with no
display name yields the address itself; malformed input (an unclosed `<`)
yields the empty string, and the function is total, so it never raises. -/
theorem C8_sender_extraction :
    (∀ name addr : Str, '"' ∉ name → '>' ∉ addr →
      extract_email ('"' :: (name ++ ('"' :: ' ' :: '<' :: (addr ++ ['>'])))) = addr) ∧
    (∀ addr : Str, '<' ∉ addr → (∀ c ∈ addr, isSpaceB c = false) →
      extract_email addr = addr) ∧
    extract_email "<".data = [] := by
  refine ⟨?_, ?_, rfl⟩
  · intro name addr hn ha
    unfold extract_email parseaddrAddr
    have h0 : findAngleGo false ('"' :: (name ++ ('"' :: ' ' :: '<' :: (addr ++ ['>'])))) =
        findAngleGo true (name ++ ('"' :: ' ' :: '<' :: (addr ++ ['>']))) := by
      simp [findAngleGo]
    rw [h0, findAngleGo_skip_quoted name _ hn]
    have h1 : findAngleGo true ('"' :: ' ' :: '<' :: (addr ++ ['>'])) =
        some (addr ++ ['>']) := by
      simp [findAngleGo]
    rw [h1]
    have h2 : (addr ++ ['>']).any (fun c => c = '>') = true := by
      simp
    show (if (List.any (addr ++ ['>']) fun c => decide (c = '>')) = true then
        List.takeWhile (fun c => decide (c ≠ '>')) (addr ++ ['>'])
      else []) = addr
    rw [if_pos h2]
    have hall : ∀ a ∈ addr, (fun c => decide (c ≠ '>')) a = true := by
      intro a haa
      simp only [decide_eq_true_iff]
      exact fun h' => ha (h' ▸ haa)
    rw [List.takeWhile_append_of_pos hall]
    simp
  · intro addr ha hs
    unfold extract_email parseaddrAddr
    rw [findAngleGo_no_angle false addr ha]
    exact pyStrip_eq_self addr hs

theorem C8_sender_extraction_witness :
    extract_email
        ('"' :: ("Doe, Jane".data ++ ('"' :: ' ' :: '<' ::
          ("jane@example.com".data ++ ['>'])))) = "jane@example.com".data :=
  C8_sender_extraction.1 "Doe, Jane".data "jane@example.com".data (by decide) (by decide)

end NovaBrief
